import Mathlib

/-!
Verification of the Optimus market-data acquisition layer against its
design document.  The definitions below are a shallow embedding of the
Python sources:

 * `src/core/http.py`                — `ResilientHTTP.get`
 * `src/datafeeds/delta_datafeed.py` — `_get_with_fallback`, `_load_products`,
   `_auto_select_option_pid`, `pick_option_instrument`,
   `_ensure_ohlc_indexed`, `_infer_epoch_unit`

Machine floats of the source are modelled by exact rationals; network
effects are modelled by passing the simulated outcome of every request
explicitly.
-/

deriving instance DecidableEq for Except

/-! ## Resilient HTTP transport (src/core/http.py) -/

/-- Simulated outcome of one `requests.get` call: either a response with a
status code, or a `requests.RequestException` (network error, timeout),
tagged with an id so distinct exceptions can be told apart. -/
inductive Outcome
  | resp (status : Nat)
  | netErr (eid : Nat)
deriving DecidableEq, Repr

/-- Exceptions that `ResilientHTTP.get` can raise: an
`requests.HTTPError` produced by `raise_for_status`, a stored request
exception, or the final generic `RuntimeError`. -/
inductive Exc
  | httpError (status : Nat)
  | reqExc (eid : Nat)
  | runtimeError
deriving DecidableEq, Repr

/-- Configuration of `ResilientHTTP` relevant to the control flow:
`attempts` is the effective attempt count (`attempts or self.default_attempts`),
and the two status-code sets. -/
structure HTTPConfig where
  attempts : Nat
  retry_on : List Nat
  no_retry_on : List Nat
deriving DecidableEq, Repr

/-- Constructor defaults of `ResilientHTTP`:
`default_attempts=3`, `retry_on=(429,500,502,503,504)`,
`no_retry_on=(400,401,403,404)`. -/
def defaultHTTPConfig : HTTPConfig :=
  ⟨3, [429, 500, 502, 503, 504], [400, 401, 403, 404]⟩

/-- Model of `Response.raise_for_status()`: raises `requests.HTTPError`
exactly for status codes 400–599, otherwise does nothing. -/
def raiseForStatus (s : Nat) : Option Exc :=
  if 400 ≤ s ∧ s < 600 then some (Exc.httpError s) else none

/-- Body of one attempt of `ResilientHTTP.get`.  `Sum.inl s` models the
`return r` for a 2xx status; `Sum.inr (some e)` models an exception `e`
raised inside the `try` block and caught by `except requests.RequestException`
(note that `requests.HTTPError` raised by `raise_for_status` is such an
exception, so it is caught too); `Sum.inr none` models falling through
with no exception raised (the attempt simply ends). -/
def attemptStep (cfg : HTTPConfig) (o : Outcome) : Sum Nat (Option Exc) :=
  match o with
  | Outcome.netErr eid => Sum.inr (some (Exc.reqExc eid))
  | Outcome.resp s =>
    if 200 ≤ s ∧ s < 300 then Sum.inl s
    else
      match (if s ∈ cfg.no_retry_on then raiseForStatus s else none) with
      | some e => Sum.inr (some e)
      | none =>
        match (if s ∉ cfg.retry_on then raiseForStatus s else none) with
        | some e => Sum.inr (some e)
        | none => Sum.inr none

/-- Result of `ResilientHTTP.get`, instrumented with the number of
attempts actually made and the number of backoff sleeps executed. -/
inductive GetResult
  | success (status : Nat) (attemptsMade sleeps : Nat)
  | failure (e : Exc) (attemptsMade sleeps : Nat)
deriving DecidableEq, Repr

/-- The `for i in range(attempts)` loop of `ResilientHTTP.get`.  Each
iteration consumes the next simulated outcome; `remaining` counts the
iterations still to run, `made` the attempts already made, `lastExc` the
stored `last_exc`, `sleeps` the sleeps executed so far.  The
`time.sleep` call runs after every non-returning attempt except the
final one (`if i < attempts - 1`). -/
def getLoop (cfg : HTTPConfig) :
    List Outcome → Nat → Nat → Option Exc → Nat → GetResult
  | _, 0, made, lastExc, sleeps =>
    match lastExc with
    | some e => GetResult.failure e made sleeps
    | none => GetResult.failure Exc.runtimeError made sleeps
  | outs, r + 1, made, lastExc, sleeps =>
    match attemptStep cfg (outs.headD (Outcome.netErr 0)) with
    | Sum.inl s => GetResult.success s (made + 1) sleeps
    | Sum.inr newE =>
      getLoop cfg outs.tail r (made + 1)
        (match newE with
         | some e => some e
         | none => lastExc)
        (if 0 < r then sleeps + 1 else sleeps)

/-- Model of `ResilientHTTP.get`: run the attempt loop on the simulated
outcome sequence, starting with no stored exception. -/
def ResilientHTTP.get (cfg : HTTPConfig) (outcomes : List Outcome) : GetResult :=
  getLoop cfg outcomes cfg.attempts 0 none 0

/-- Outcomes the design document calls retryable: a network/timeout
exception, or a non-2xx status belonging to the configured retry set. -/
def retryableOutcome (cfg : HTTPConfig) (o : Outcome) : Bool :=
  match o with
  | Outcome.netErr _ => true
  | Outcome.resp s => decide (¬ (200 ≤ s ∧ s < 300)) && decide (s ∈ cfg.retry_on)

/-! ## Endpoint fallback resolver (`DeltaDataFeed._get_with_fallback`) -/

/-- Aggregated failure raised when every candidate path fails: the
`RuntimeError` message names the whole candidate list and the last
underlying error (`last_error` is `None` when the list was empty). -/
structure AllEndpointsFailed (E : Type) where
  tried : List String
  lastError : Option E
deriving DecidableEq, Repr

/-- Loop of `_get_with_fallback`.  `behavior` gives the simulated result
of issuing `self.http.get` on a path and parsing the body as JSON (both
failure modes land in the same `except` clause).  The returned list
records which paths were actually contacted, in order. -/
def fallbackLoop {E D : Type} (allPaths : List String) (behavior : String → Except E D) :
    List String → Option E → List String →
    Except (AllEndpointsFailed E) D × List String
  | [], lastError, called =>
    (Except.error ⟨allPaths, lastError⟩, called.reverse)
  | p :: rest, _, called =>
    match behavior p with
    | Except.ok d => (Except.ok d, (p :: called).reverse)
    | Except.error e => fallbackLoop allPaths behavior rest (some e) (p :: called)

/-- Model of `DeltaDataFeed._get_with_fallback`: try each path in order,
return the first parsed success, otherwise raise the aggregated error. -/
def getWithFallback {E D : Type} (paths : List String) (behavior : String → Except E D) :
    Except (AllEndpointsFailed E) D × List String :=
  fallbackLoop paths behavior paths none []

/-! ## Product catalog envelope (`DeltaDataFeed._load_products`) -/

/-- Fragment of Python/JSON values sufficient for the envelope logic of
`_load_products`.  List entries are abstracted to identifiers, since the
envelope decision never inspects them. -/
inductive PyVal
  | vlist (items : List Nat)
  | vdict (nonempty : Bool)
  | vnum (q : ℚ)
  | vstr (s : String)
  | vnull
deriving DecidableEq, Repr

/-- Python truthiness of the modelled values: empty containers, zero,
the empty string and `None` are falsy. -/
def pyTruthy : PyVal → Bool
  | PyVal.vlist items => !items.isEmpty
  | PyVal.vdict ne => ne
  | PyVal.vnum q => decide (q ≠ 0)
  | PyVal.vstr s => !s.isEmpty
  | PyVal.vnull => false

/-- Python `a or b`: `a` when truthy, else `b`. -/
def pyOr (a b : PyVal) : PyVal :=
  if pyTruthy a then a else b

/-- Python `d.get(k)` on a JSON object, with absent keys yielding `None`. -/
def dictGet (fields : List (String × PyVal)) (k : String) : PyVal :=
  match fields.find? (fun kv => kv.1 == k) with
  | some kv => kv.2
  | none => PyVal.vnull

/-- Shape of the raw products response: a top-level JSON list, or a JSON
object whose fields may wrap the list. -/
inductive RawProducts
  | plist (items : List Nat)
  | pobj (fields : List (String × PyVal))
deriving DecidableEq, Repr

/-- Envelope step of `_load_products`:
`items = data if isinstance(data, list) else data.get("result") or data.get("data") or data.get("products")`
followed by `if not isinstance(items, list): raise RuntimeError(...)`. -/
def productsItems (data : RawProducts) : Except String (List Nat) :=
  match data with
  | RawProducts.plist items => Except.ok items
  | RawProducts.pobj fields =>
    match pyOr (dictGet fields "result") (pyOr (dictGet fields "data") (dictGet fields "products")) with
    | PyVal.vlist items => Except.ok items
    | _ => Except.error "Products response does not contain a valid list of products"

/-- Envelope extraction as the design document words it: the first
matching key among `result`, `data`, `products` whose value IS A LIST is
used; if no list-like payload is found, fail with the schema error.
This definition follows the claim, to be compared with `productsItems`. -/
def claimProductsItems (data : RawProducts) : Except String (List Nat) :=
  match data with
  | RawProducts.plist items => Except.ok items
  | RawProducts.pobj fields =>
    match (["result", "data", "products"].filterMap fun k =>
        match dictGet fields k with
        | PyVal.vlist items => some items
        | _ => none).head? with
    | some items => Except.ok items
    | none => Except.error "Products response does not contain a valid list of products"

/-- Envelope extraction as amended: the first key among `result`, `data`,
`products` whose value is TRUTHY is selected (falling back to the value
of the last key, possibly null, when none is truthy); extraction succeeds
exactly when that selected value is a list. -/
def amendedProductsItems (data : RawProducts) : Except String (List Nat) :=
  match data with
  | RawProducts.plist items => Except.ok items
  | RawProducts.pobj fields =>
    let candidates := ["result", "data", "products"].map (dictGet fields)
    let selected :=
      match candidates.find? pyTruthy with
      | some v => v
      | none => (candidates.getLast?).getD PyVal.vnull
    match selected with
    | PyVal.vlist items => Except.ok items
    | _ => Except.error "Products response does not contain a valid list of products"

/-! ## Kernel-computable scalar helpers

The Python sources compute with machine floats and with Unicode string
methods; the embedding uses exact rationals and explicit character
lists.  The arithmetic and case-mapping helpers below are
extensionally the standard rational operations and ASCII case maps
(agreement lemmas are proved later); they are spelled through `mkRat`
and `List.map` so that every definition evaluates on concrete input. -/

/-- Exact subtraction `a - b` on rationals. -/
def ratSub (a b : ℚ) : ℚ :=
  mkRat (a.num * b.den - b.num * a.den) (a.den * b.den)

/-- Exact absolute value on rationals. -/
def ratAbs (q : ℚ) : ℚ :=
  mkRat q.num.natAbs q.den

/-- Exact division by 1000 (the millisecond-to-second conversion). -/
def ratDiv1000 (q : ℚ) : ℚ :=
  mkRat q.num (q.den * 1000)

/-- Exact multiplication by 1000 (the second-to-millisecond conversion). -/
def ratMul1000 (q : ℚ) : ℚ :=
  mkRat (1000 * q.num) q.den

/-- Model of Python `str.upper()` for the ASCII identifiers the source
compares. -/
def strUp (s : String) : String :=
  String.mk (s.data.map Char.toUpper)

/-- Model of Python `str.lower()` for the ASCII identifiers the source
compares. -/
def strLow (s : String) : String :=
  String.mk (s.data.map Char.toLower)

/-! ## Ascending sort with missing keys last

The source sorts with pandas `sort_values` / `sort_index` in their
defaults: ascending, `na_position="last"` (`NaN`/`NaT` keys after every
real key), `kind="quicksort"`.  That contract fixes the multiset of
rows and the ascending key order but NOT the relative order of tied
keys: numpy quicksort is unstable above its small-array
insertion-sort threshold, so tie order is an implementation accident.
The relational contract `IsSortValuesOf` below captures exactly what
the source guarantees; `sortByKey` is one concrete realization (a
stable insertion sort), `sortByKeyLate` is the realization with the
opposite tie order, and `unstableSortValues` mixes the two — all three
satisfy the contract.  Claims whose truth would depend on the tie
order must therefore quantify over the contract, not over one
realization. -/

/-- Ascending comparison on optional keys, missing keys last. -/
def keyLe (a b : Option ℚ) : Bool :=
  match a, b with
  | some x, some y => decide (x ≤ y)
  | some _, none => true
  | none, some _ => false
  | none, none => true

/-- Insert an element in front of the first position whose key is not
smaller, keeping elements of equal key after it (stability). -/
def insertByKey {α : Type} (key : α → Option ℚ) (x : α) : List α → List α
  | [] => [x]
  | y :: ys =>
    if keyLe (key x) (key y) then x :: y :: ys else y :: insertByKey key x ys

/-- Stable ascending sort by an optional key. -/
def sortByKey {α : Type} (key : α → Option ℚ) : List α → List α
  | [] => []
  | x :: xs => insertByKey key x (sortByKey key xs)

/-- First element of a list attaining the minimal key, when the list is
not empty (the stable argmin: ties go to the earlier element). -/
def firstMinBy {α : Type} (key : α → Option ℚ) : List α → Option α
  | [] => none
  | x :: xs =>
    match firstMinBy key xs with
    | none => some x
    | some m => if keyLe (key x) (key m) then some x else some m

/-- Strict version of `keyLe`. -/
def keyLt (a b : Option ℚ) : Bool :=
  !(keyLe b a)

/-- Insert an element in front of the first position whose key is
strictly larger, placing it after every element of equal key: the
realization of ascending sorting with the opposite tie order from
`insertByKey`. -/
def insertByKeyLate {α : Type} (key : α → Option ℚ) (x : α) : List α → List α
  | [] => [x]
  | y :: ys =>
    if keyLt (key x) (key y) then x :: y :: ys else y :: insertByKeyLate key x ys

/-- Ascending sort by an optional key with the opposite tie order. -/
def sortByKeyLate {α : Type} (key : α → Option ℚ) : List α → List α
  | [] => []
  | x :: xs => insertByKeyLate key x (sortByKeyLate key xs)

/-- Everything one `sort_values(by=key, kind="quicksort")` call
guarantees about its output: it is a permutation of the input that is
ascending in the key with missing keys last.  The relative order of
tied keys is NOT part of the contract. -/
def IsSortValuesOf {α : Type} (key : α → Option ℚ) (l out : List α) : Prop :=
  out.Perm l ∧ List.Pairwise (fun a b => keyLe (key a) (key b) = true) out

/-- A sorting function every call of which meets the `sort_values`
contract. -/
def ValidSortValues {α : Type} (sortF : (α → Option ℚ) → List α → List α) : Prop :=
  ∀ key l, IsSortValuesOf key l (sortF key l)

/-- A valid `sort_values` realization whose tie order depends on the
key values (elements whose keys are all below 10⁶ get the late tie
order, others the early one) — the kind of value-dependent tie
behaviour an unstable quicksort is free to exhibit. -/
def unstableSortValues {α : Type} (key : α → Option ℚ) (l : List α) : List α :=
  if l.all (fun a =>
      match key a with
      | some q => decide (q < 1000000)
      | none => false) then
    sortByKeyLate key l
  else sortByKey key l

/-! ## Normalized products and the auto-selection algorithm
(`DeltaDataFeed._auto_select_option_pid`) -/

/-- Row of the normalized catalog produced by `_load_products`: columns
`product_id, symbol, product_type, underlying, option_type, strike_price,
expiry_dt`.  Rows with null `product_id`, `symbol` or `product_type` were
already dropped there, so those fields are total; `option_type` holds the
string form produced by `astype(str)` (so a missing value reads "None");
`strike_price` may be `NaN` and `expiry_dt` may be `NaT`, modelled by
`Option`.  Expiries are UTC epoch seconds as exact rationals. -/
structure Product where
  product_id : Nat
  symbol : String
  product_type : String
  underlying : String
  option_type : String
  strike_price : Option ℚ
  expiry_dt : Option ℚ
deriving DecidableEq, Repr

/-- Decide whether the first character list is an initial segment of the
second. -/
def charsPrefixOf : List Char → List Char → Bool
  | [], _ => true
  | _ :: _, [] => false
  | a :: as, b :: bs => a == b && charsPrefixOf as bs

/-- Decide whether the first character list occurs contiguously inside
the second. -/
def charsInfixOf (needle : List Char) : List Char → Bool
  | [] => charsPrefixOf needle []
  | b :: bs => charsPrefixOf needle (b :: bs) || charsInfixOf needle bs

/-- Substring test, modelling `Series.str.contains(pat)` for the literal
patterns used by the source (none of them contains a regex
metacharacter); callers pass both sides through the intended casing. -/
def strContains (hay needle : String) : Bool :=
  charsInfixOf needle.toList hay.toList

/-- Model of Python `str.startswith(pre)`. -/
def strStartsWith (s pre : String) : Bool :=
  charsPrefixOf pre.toList s.toList

/-- Error conditions of `_auto_select_option_pid`, one per `raise` site,
named as in the design document.  `internalIndexError` stands for the
`IndexError` of an `iloc[0]` on an empty frame; it is unreachable. -/
inductive SelErr
  | noOptionsListed
  | noMatchingRoot
  | noFutureExpiry
  | spotUnavailable
  | noMatchingType
  | internalIndexError
deriving DecidableEq, Repr

/-- Filter to option rows:
`df["product_type"].astype(str).str.contains("options", case=False, na=False)`. -/
def optionsFilter (catalog : List Product) : List Product :=
  catalog.filter fun p => strContains (strLow p.product_type) "options"

/-- Root/underlying predicate of the selection: symbol starts with
`ROOT-`, or the upper-cased underlying field contains the root or the
underlying ticker. -/
def rootPred (root underlying : String) (p : Product) : Bool :=
  strStartsWith (strUp p.symbol) (strUp root ++ "-")
  || strContains (strUp p.underlying) (strUp root)
  || strContains (strUp p.underlying) (strUp underlying)

/-- Filter to rows matching the configured root or underlying. -/
def rootFilter (root underlying : String) (l : List Product) : List Product :=
  l.filter (rootPred root underlying)

/-- Future-expiry predicate: expiry is present (`notna`) and at or after
`now - timedelta(minutes=1)`. -/
def futurePred (now : ℚ) (p : Product) : Bool :=
  match p.expiry_dt with
  | some e => decide (ratSub now 60 ≤ e)
  | none => false

/-- Filter to rows with a future (grace-windowed) expiry. -/
def futureFilter (now : ℚ) (l : List Product) : List Product :=
  l.filter (futurePred now)

/-- Option-type preference filter: applied only when the preference is
`call` or `put`, comparing against `option_type` lower-cased. -/
def typeFilter (pref : String) (l : List Product) : List Product :=
  if pref == "call" || pref == "put" then
    l.filter fun p => strLow p.option_type == pref
  else l

/-- Absolute strike distance to spot,
`(pd.to_numeric(cexp["strike_price"]) - spot).abs()`; a missing strike
propagates to a missing key (which sorts last). -/
def absStrikeDist (spot : ℚ) (p : Product) : Option ℚ :=
  match p.strike_price with
  | some k => some (ratAbs (ratSub k spot))
  | none => none

/-- Model of `DeltaDataFeed._auto_select_option_pid`.  The underlying
spot price probe `_get_underlying_price()` is passed in as `spot`
(`none` models its failure; the code also rejects a non-finite or
non-positive probe, and a rational spot is finite by construction).
Returns `Except` for the `raise` sites and `Option Nat` because the
Python function is typed `Optional[int]`. -/
def autoSelectOptionPid (catalog : List Product) (root underlying pref : String)
    (now : ℚ) (spot : Option ℚ) : Except SelErr (Option Nat) :=
  let df1 := optionsFilter catalog
  if df1.isEmpty then Except.error SelErr.noOptionsListed else
  let df2 := rootFilter root underlying df1
  if df2.isEmpty then Except.error SelErr.noMatchingRoot else
  let df3 := futureFilter now df2
  if df3.isEmpty then Except.error SelErr.noFutureExpiry else
  match spot with
  | none => Except.error SelErr.spotUnavailable
  | some sp =>
    if sp ≤ 0 then Except.error SelErr.spotUnavailable else
    let df4 := typeFilter pref df3
    if (pref == "call" || pref == "put") && df4.isEmpty then
      Except.error SelErr.noMatchingType
    else
      match sortByKey (fun p => p.expiry_dt) df4 with
      | [] => Except.error SelErr.internalIndexError
      | m :: rest =>
        let nearest := m.expiry_dt
        let cexp := (m :: rest).filter fun p => decide (p.expiry_dt = nearest)
        if cexp.isEmpty then Except.ok none else
        match sortByKey (absStrikeDist sp) cexp with
        | [] => Except.error SelErr.internalIndexError
        | best :: _ => Except.ok (some best.product_id)

/-- Model of `DeltaDataFeed._auto_select_option_pid` with the two
`sort_values` calls abstracted into a parameter: the source sorts with
the default unstable quicksort, whose tie order is not specified, so
the faithful model quantifies over every sorting function meeting the
`sort_values` contract (`ValidSortValues`).  The body is otherwise the
same translation as `autoSelectOptionPid`, which is the instantiation
at the stable realization (see `autoSelectOptionPid_eq_with`). -/
def autoSelectOptionPidWith
    (sortF : (Product → Option ℚ) → List Product → List Product)
    (catalog : List Product) (root underlying pref : String)
    (now : ℚ) (spot : Option ℚ) : Except SelErr (Option Nat) :=
  let df1 := optionsFilter catalog
  if df1.isEmpty then Except.error SelErr.noOptionsListed else
  let df2 := rootFilter root underlying df1
  if df2.isEmpty then Except.error SelErr.noMatchingRoot else
  let df3 := futureFilter now df2
  if df3.isEmpty then Except.error SelErr.noFutureExpiry else
  match spot with
  | none => Except.error SelErr.spotUnavailable
  | some sp =>
    if sp ≤ 0 then Except.error SelErr.spotUnavailable else
    let df4 := typeFilter pref df3
    if (pref == "call" || pref == "put") && df4.isEmpty then
      Except.error SelErr.noMatchingType
    else
      match sortF (fun p => p.expiry_dt) df4 with
      | [] => Except.error SelErr.internalIndexError
      | m :: rest =>
        let nearest := m.expiry_dt
        let cexp := (m :: rest).filter fun p => decide (p.expiry_dt = nearest)
        if cexp.isEmpty then Except.ok none else
        match sortF (absStrikeDist sp) cexp with
        | [] => Except.error SelErr.internalIndexError
        | best :: _ => Except.ok (some best.product_id)

/-- Survivor set of the four hard filters, in the order the code applies
them; the claims quantify over catalogs through this definition. -/
def selectionSurvivors (catalog : List Product) (root underlying pref : String)
    (now : ℚ) : List Product :=
  typeFilter pref (futureFilter now (rootFilter root underlying (optionsFilter catalog)))

/-- Cohort of survivors sharing the minimum expiry, as the design
document words step 6 of the selection. -/
def minExpiryCohort (survivors : List Product) : List Product :=
  match firstMinBy (fun p => p.expiry_dt) survivors with
  | none => []
  | some m => survivors.filter fun p => decide (p.expiry_dt = m.expiry_dt)

/-! ## Instrument resolution (`DeltaDataFeed.pick_option_instrument`) -/

/-- Exceptions that can escape `pick_option_instrument`: only the
`ValueError` of `int(self.explicit_opt_pid)` on a non-numeric override
(the auto-selection exceptions are caught inside the function). -/
inductive PickErr
  | valueError
deriving DecidableEq, Repr

/-- Test that `int(s)` succeeds, for the strings the claims use (an
unsigned decimal literal). -/
def isNatString (s : String) : Bool :=
  !s.isEmpty && s.toList.all Char.isDigit

/-- Model of `DeltaDataFeed.pick_option_instrument`.  The result of the
`self._auto_select_option_pid(...)` call is passed in as `autoRes`, and
`self._symbol_for_product_id` as `symLookup` (it returns `None` when the
lookup fails).  Step 1 returns an explicit override; step 2 runs the
auto-selection inside `try/except Exception`, falling through on `None`
or on any raised error; step 3 returns the option root as fallback. -/
def pickOptionInstrument (explicitSym explicitPid : String) (autodetect : Bool)
    (symbolParam : String) (autoRes : Except SelErr (Option Nat))
    (symLookup : Nat → Option String) (optionRoot : String) : Except PickErr String :=
  if !explicitSym.isEmpty then Except.ok explicitSym
  else if !explicitPid.isEmpty then
    if isNatString explicitPid then Except.ok explicitPid
    else Except.error PickErr.valueError
  else
    let afterAuto : Option String :=
      if autodetect then
        match autoRes with
        | Except.error _ => none
        | Except.ok none => none
        | Except.ok (some pid) =>
          if symbolParam == "product_id" then some (toString pid)
          else
            match symLookup pid with
            | some sym => some sym
            | none => some (toString pid)
      else none
    match afterAuto with
    | some s => Except.ok s
    | none => Except.ok optionRoot

/-! ## Candle normalization (`_ensure_ohlc_indexed`, `_infer_epoch_unit`)

A raw candle payload is modelled as a data frame built from a list of
records: a column-name list plus one key/cell association list per row.
Cells are exact rationals or missing (`NaN`); string-typed payload cells
are outside the model, which is why every modelled column has a numeric
dtype and the ISO-8601 string branch of the timestamp parse never fires.
The frames of interest carry the default integer range index that
`pd.DataFrame(records)` produces. -/

/-- Cell of a raw payload column: a (finite) number or a missing value. -/
inductive Cell
  | num (q : ℚ)
  | nan
deriving DecidableEq, Repr

/-- Data frame: column names plus rows of key/cell pairs. -/
structure Frame where
  cols : List String
  rows : List (List (String × Cell))
deriving DecidableEq, Repr

/-- Read one cell of a row; keys a record lacks read as `NaN`, as in a
frame built from records with heterogeneous keys. -/
def getCell (row : List (String × Cell)) (c : String) : Cell :=
  match row.find? (fun kv => kv.1 == c) with
  | some kv => kv.2
  | none => Cell.nan

/-- Rename one key through a rename map, leaving unmapped keys alone. -/
def renameKey (m : List (String × String)) (k : String) : String :=
  match m.find? (fun kv => kv.1 == k) with
  | some kv => kv.2
  | none => k

/-- Apply `DataFrame.rename(columns=m)` to the whole frame. -/
def renameFrame (m : List (String × String)) (f : Frame) : Frame :=
  ⟨f.cols.map (renameKey m),
   f.rows.map fun row => row.map fun kv => (renameKey m kv.1, kv.2)⟩

/-- The three rename maps of `_ensure_ohlc_indexed`, in source order. -/
def RENAME_MAPS : List (List (String × String)) :=
  [[("o", "open"), ("h", "high"), ("l", "low"), ("c", "close")],
   [("open_price", "open"), ("high_price", "high"),
    ("low_price", "low"), ("close_price", "close")],
   [("openPrice", "open"), ("highPrice", "high"),
    ("lowPrice", "low"), ("closePrice", "close")]]

/-- Apply each rename map whose key set meets the current columns
(`hit = set(cmap.keys()) & set(out.columns); if hit: out = out.rename(...)`);
every matching map is applied, in order. -/
def applyRenames (f : Frame) : Frame :=
  RENAME_MAPS.foldl
    (fun acc m => if m.any (fun kv => acc.cols.contains kv.1) then renameFrame m acc else acc)
    f

/-- Candidate timestamp column names, in the priority order of the
source. -/
def TS_CANDIDATES : List String :=
  ["t", "time", "timestamp", "start_at", "date", "datetime", "start_time"]

/-- Model of `_infer_epoch_unit`: milliseconds when the first value
exceeds 1e12, seconds otherwise (also for a leading `NaN`, since
`float(nan) > 1e12` is false). -/
def inferEpochUnitMs (c : Cell) : Bool :=
  match c with
  | Cell.num q => decide (q > 1000000000000)
  | Cell.nan => false

/-- Model of `pd.to_datetime(x, unit=..., utc=True, errors="coerce")` on
a numeric cell, as a UTC instant in epoch seconds; `NaN` coerces to
`NaT`. -/
def parseEpoch (ms : Bool) (c : Cell) : Option ℚ :=
  match c with
  | Cell.num q => some (if ms then ratDiv1000 q else q)
  | Cell.nan => none

/-- Attach the timestamp index to every row.  With a timestamp column
present, parse it with the inferred epoch unit, set it as index and sort
ascending (`set_index(ts_col).sort_index()`, missing keys last).  With no
timestamp column, the default integer range index is converted by
`pd.to_datetime(out.index, utc=True)`, which reads integers as
nanoseconds — the order is untouched. -/
def buildIndexed (f : Frame) : List (Option ℚ × List (String × Cell)) :=
  match TS_CANDIDATES.find? (fun c => f.cols.contains c) with
  | none =>
    f.rows.enum.map fun ir => (some (mkRat ir.1 1000000000), ir.2)
  | some c =>
    let ms :=
      match f.rows with
      | [] => false
      | r :: _ => inferEpochUnitMs (getCell r c)
    sortByKey (fun p => p.1) (f.rows.map fun r => (parseEpoch ms (getCell r c), r))

/-- Model of `pd.to_numeric(x, errors="coerce")` on a modelled cell. -/
def toNum (c : Cell) : Option ℚ :=
  match c with
  | Cell.num q => some q
  | Cell.nan => none

/-- Canonical candle row of the normalized output: the timestamp index
(`none` for `NaT`, which `dropna` does not remove since it only looks at
the four value columns) and the four finite OHLC values. -/
structure NormRow where
  ts : Option ℚ
  o : ℚ
  hi : ℚ
  lo : ℚ
  c : ℚ
deriving DecidableEq, Repr

/-- Model of `_ensure_ohlc_indexed`.  The input is `Option Frame` so that
a `None` argument is representable; a `None` or empty frame yields the
graceful empty series.  Otherwise the rename maps and the timestamp
index are applied, the four OHLC columns are selected — raising a
`KeyError` when one is absent — and rows with a missing value among the
four are dropped. -/
def ensureOhlcIndexed (df : Option Frame) : Except String (List NormRow) :=
  match df with
  | none => Except.ok []
  | some f =>
    if f.rows.isEmpty then Except.ok [] else
    let f2 := applyRenames f
    let indexed := buildIndexed f2
    if ["open", "high", "low", "close"].all (fun c => f2.cols.contains c) then
      Except.ok (indexed.filterMap fun p =>
        match toNum (getCell p.2 "open"), toNum (getCell p.2 "high"),
              toNum (getCell p.2 "low"), toNum (getCell p.2 "close") with
        | some o, some hi, some lo, some c => some ⟨p.1, o, hi, lo, c⟩
        | _, _, _, _ => none)
    else
      Except.error "KeyError: columns open/high/low/close not all present"

/-! ## Concrete inputs used by the theorems -/

/-- Abstract candle content standing for one raw row: an instant in
epoch seconds and four OHLC values. -/
structure CandleIn where
  ts : ℚ
  o : ℚ
  hi : ℚ
  lo : ℚ
  c : ℚ
deriving DecidableEq, Repr

/-- One raw record keyed `t,o,h,l,c`, the timestamp in epoch
milliseconds. -/
def shortRow (r : CandleIn) : List (String × Cell) :=
  [("t", Cell.num (ratMul1000 r.ts)), ("o", Cell.num r.o), ("h", Cell.num r.hi),
   ("l", Cell.num r.lo), ("c", Cell.num r.c)]

/-- The record `shortRow` produces after the `o/h/l/c` rename map. -/
def shortRowRenamed (r : CandleIn) : List (String × Cell) :=
  [("t", Cell.num (ratMul1000 r.ts)), ("open", Cell.num r.o), ("high", Cell.num r.hi),
   ("low", Cell.num r.lo), ("close", Cell.num r.c)]

/-- One raw record already using the canonical keys, the timestamp in
epoch seconds. -/
def canonRow (r : CandleIn) : List (String × Cell) :=
  [("timestamp", Cell.num r.ts), ("open", Cell.num r.o), ("high", Cell.num r.hi),
   ("low", Cell.num r.lo), ("close", Cell.num r.c)]

/-- Raw payload carrying epoch milliseconds under key `t` and prices
under `o,h,l,c`. -/
def rawShortFrame (rs : List CandleIn) : Frame :=
  ⟨["t", "o", "h", "l", "c"], rs.map shortRow⟩

/-- Raw payload carrying the same instants as epoch seconds under key
`timestamp` and prices under the canonical field names. -/
def rawCanonFrame (rs : List CandleIn) : Frame :=
  ⟨["timestamp", "open", "high", "low", "close"], rs.map canonRow⟩

/-- Canonical normalized series of abstract candle contents: sorted by
instant (stably) with every row retained. -/
def canonicalOf (rs : List CandleIn) : List NormRow :=
  (sortByKey (fun r => some r.ts) rs).map fun r => ⟨some r.ts, r.o, r.hi, r.lo, r.c⟩

/-- Payload with two rows sharing the epoch-millisecond timestamp
2×10¹² and differing closes. -/
def dupTsFrame : Frame :=
  ⟨["t", "o", "h", "l", "c"],
   [[("t", Cell.num 2000000000000), ("o", Cell.num 1), ("h", Cell.num 2),
     ("l", Cell.num 0), ("c", Cell.num 1)],
    [("t", Cell.num 2000000000000), ("o", Cell.num 1), ("h", Cell.num 2),
     ("l", Cell.num 0), ("c", Cell.num 2)]]⟩

/-- Non-empty payload that lacks `high/low/close` after renaming. -/
def missingColsFrame : Frame :=
  ⟨["t", "o"], [[("t", Cell.num 1600000000), ("o", Cell.num 5)]]⟩

/-- Fixed instant for the selection scenarios (any value works; the
expiries below are defined relative to it). -/
def scenarioNow : ℚ := 1755000000

/-- End-to-end scenario catalog: two ETH call options at `T+3d`, that
is at instant 1755259200 (strikes 2000 and 2400), and one at `T+10d`,
that is at instant 1755864000 (strike 2200). -/
def ethScenarioCatalog : List Product :=
  [⟨1, "ETH-03D-2000-C", "call_options", "ETHUSD", "call", some 2000, some 1755259200⟩,
   ⟨2, "ETH-03D-2400-C", "call_options", "ETHUSD", "call", some 2400, some 1755259200⟩,
   ⟨3, "ETH-10D-2200-C", "call_options", "ETHUSD", "call", some 2200, some 1755864000⟩]

/-- Catalog whose nearest-expiry cohort ties in strike distance: the
call and the put at strike 2000 share expiry 1755259200, so their
distances to spot 2050 are equal; a farther-expiry strike-2200 call
rules out accidental emptiness. -/
def tieCatalog : List Product :=
  [⟨11, "ETH-03D-2000-C", "call_options", "ETHUSD", "call", some 2000, some 1755259200⟩,
   ⟨12, "ETH-03D-2000-P", "put_options", "ETHUSD", "put", some 2000, some 1755259200⟩,
   ⟨13, "ETH-10D-2200-C", "call_options", "ETHUSD", "call", some 2200, some 1755864000⟩]

/-- Catalog holding a single ETH call option whose expiry lies in the
past relative to `scenarioNow`. -/
def pastExpiryCatalog : List Product :=
  [⟨7, "ETH-OLD-2000-C", "call_options", "ETHUSD", "call", some 2000, some 1609459200⟩]

/-- Catalog with two root-matching options, one with a past expiry and
one with no expiry at all. -/
def stalePairCatalog : List Product :=
  [⟨11, "ETH-OLD-1800-P", "put_options", "ETHUSD", "put", some 1800, some 1609459200⟩,
   ⟨12, "ETH-NOEXP-2100-C", "call_options", "ETHUSD", "call", some 2100, none⟩]

/-- Products response whose `result` field is a non-empty object while
`data` holds the list. -/
def wrappedProductsResponse : RawProducts :=
  RawProducts.pobj [("result", PyVal.vdict true), ("data", PyVal.vlist [1, 2])]

/-- Demonstration behavior for the fallback resolver: path `A` fails,
paths `B` and `C` succeed with distinct payloads. -/
def demoBehavior : String → Except Nat Nat := fun p =>
  if p = "A" then Except.error 1
  else if p = "B" then Except.ok 42
  else Except.ok 7

/-! ## Lemmas about the stable sort -/

theorem keyLe_refl (a : Option ℚ) : keyLe a a = true := by
  cases a <;> simp [keyLe]

theorem keyLe_total (a b : Option ℚ) : keyLe a b = true ∨ keyLe b a = true := by
  cases a <;> cases b <;> simp [keyLe]
  exact le_total _ _

theorem keyLe_trans {a b c : Option ℚ} (h1 : keyLe a b = true) (h2 : keyLe b c = true) :
    keyLe a c = true := by
  cases a <;> cases b <;> cases c <;> simp [keyLe] at *
  exact le_trans h1 h2

theorem mem_insertByKey {α : Type} (key : α → Option ℚ) (x a : α) (l : List α) :
    a ∈ insertByKey key x l ↔ a = x ∨ a ∈ l := by
  induction l with
  | nil => simp [insertByKey]
  | cons y ys ih =>
    simp only [insertByKey]
    by_cases h : keyLe (key x) (key y) = true
    · simp [h, List.mem_cons]
    · simp [h, List.mem_cons, ih]
      tauto

theorem pairwise_insertByKey {α : Type} (key : α → Option ℚ) (x : α) {l : List α}
    (hl : List.Pairwise (fun a b => keyLe (key a) (key b) = true) l) :
    List.Pairwise (fun a b => keyLe (key a) (key b) = true) (insertByKey key x l) := by
  induction l with
  | nil => simp [insertByKey]
  | cons y ys ih =>
    rcases List.pairwise_cons.mp hl with ⟨hy, hys⟩
    simp only [insertByKey]
    by_cases h : keyLe (key x) (key y) = true
    · rw [if_pos h]
      refine List.pairwise_cons.mpr ⟨?_, hl⟩
      intro b hb
      rcases List.mem_cons.mp hb with rfl | hb
      · exact h
      · exact keyLe_trans h (hy b hb)
    · rw [if_neg h]
      refine List.pairwise_cons.mpr ⟨?_, ih hys⟩
      intro b hb
      rcases (mem_insertByKey key x b ys).mp hb with hbx | hb
      · subst hbx
        rcases keyLe_total (key b) (key y) with h' | h'
        · exact absurd h' h
        · exact h'
      · exact hy b hb

theorem pairwise_sortByKey {α : Type} (key : α → Option ℚ) (l : List α) :
    List.Pairwise (fun a b => keyLe (key a) (key b) = true) (sortByKey key l) := by
  induction l with
  | nil => exact List.Pairwise.nil
  | cons x xs ih => exact pairwise_insertByKey key x ih

theorem head?_insertByKey {α : Type} (key : α → Option ℚ) (x : α) (l : List α) :
    (insertByKey key x l).head? =
      some (match l.head? with
            | none => x
            | some y => if keyLe (key x) (key y) then x else y) := by
  cases l with
  | nil => rfl
  | cons y ys =>
    simp only [insertByKey]
    by_cases h : keyLe (key x) (key y) = true <;> simp [h]

theorem head?_sortByKey {α : Type} (key : α → Option ℚ) (l : List α) :
    (sortByKey key l).head? = firstMinBy key l := by
  induction l with
  | nil => rfl
  | cons x xs ih =>
    simp only [sortByKey, firstMinBy]
    rw [head?_insertByKey, ih]
    cases firstMinBy key xs with
    | none => rfl
    | some m => by_cases h : keyLe (key x) (key m) = true <;> simp [h]

theorem firstMinBy_mem {α : Type} {key : α → Option ℚ} {l : List α} {m : α}
    (h : firstMinBy key l = some m) : m ∈ l := by
  induction l with
  | nil => simp [firstMinBy] at h
  | cons x xs ih =>
    cases hfm : firstMinBy key xs with
    | none =>
      simp only [firstMinBy, hfm] at h
      injection h with h
      exact h ▸ List.mem_cons_self x xs
    | some m' =>
      simp only [firstMinBy, hfm] at h
      by_cases hc : keyLe (key x) (key m') = true
      · rw [if_pos hc] at h
        injection h with h
        exact h ▸ List.mem_cons_self x xs
      · rw [if_neg hc] at h
        injection h with h
        exact List.mem_cons_of_mem x (ih (h ▸ hfm))

theorem firstMinBy_cons_isSome {α : Type} (key : α → Option ℚ) (x : α) (xs : List α) :
    ∃ m, firstMinBy key (x :: xs) = some m := by
  simp only [firstMinBy]
  cases firstMinBy key xs with
  | none => exact ⟨x, rfl⟩
  | some m =>
    by_cases h : keyLe (key x) (key m) = true
    · exact ⟨x, by simp [h]⟩
    · exact ⟨m, by simp [h]⟩

theorem length_insertByKey {α : Type} (key : α → Option ℚ) (x : α) (l : List α) :
    (insertByKey key x l).length = l.length + 1 := by
  induction l with
  | nil => rfl
  | cons y ys ih =>
    simp only [insertByKey]
    by_cases h : keyLe (key x) (key y) = true <;> simp [h, ih]

theorem length_sortByKey {α : Type} (key : α → Option ℚ) (l : List α) :
    (sortByKey key l).length = l.length := by
  induction l with
  | nil => rfl
  | cons x xs ih => simp [sortByKey, length_insertByKey, ih]

theorem sortByKey_ne_nil {α : Type} (key : α → Option ℚ) {l : List α} (h : l ≠ []) :
    sortByKey key l ≠ [] := by
  intro hcon
  apply h
  have := length_sortByKey key l
  rw [hcon] at this
  exact List.length_eq_zero.mp this.symm

theorem filter_decideEq_insertByKey {α : Type} (key : α → Option ℚ) (x : α)
    (l : List α) (k : Option ℚ) :
    (insertByKey key x l).filter (fun a => decide (key a = k))
      = if key x = k then x :: l.filter (fun a => decide (key a = k))
        else l.filter (fun a => decide (key a = k)) := by
  induction l with
  | nil =>
    simp only [insertByKey, List.filter]
    by_cases h : key x = k <;> simp [h]
  | cons y ys ih =>
    simp only [insertByKey]
    by_cases h : keyLe (key x) (key y) = true
    · rw [if_pos h]
      by_cases hx : key x = k <;> simp [hx, List.filter_cons]
    · rw [if_neg h]
      rw [List.filter_cons, ih]
      by_cases hx : key x = k
      · have hy : ¬ (key y = k) := by
          intro hy
          exact h (hx ▸ hy ▸ keyLe_refl k)
        simp [hx, hy, List.filter_cons]
      · simp [hx, List.filter_cons]

theorem filter_decideEq_sortByKey {α : Type} (key : α → Option ℚ) (l : List α)
    (k : Option ℚ) :
    (sortByKey key l).filter (fun a => decide (key a = k))
      = l.filter (fun a => decide (key a = k)) := by
  induction l with
  | nil => rfl
  | cons x xs ih =>
    simp only [sortByKey]
    rw [filter_decideEq_insertByKey]
    by_cases h : key x = k <;> simp [h, ih, List.filter_cons]

theorem map_insertByKey {α β : Type} (key1 : α → Option ℚ) (key2 : β → Option ℚ)
    (F : α → β) (hF : ∀ a, key2 (F a) = key1 a) (x : α) (l : List α) :
    insertByKey key2 (F x) (l.map F) = (insertByKey key1 x l).map F := by
  induction l with
  | nil => rfl
  | cons y ys ih =>
    simp only [List.map, insertByKey, hF]
    by_cases h : keyLe (key1 x) (key1 y) = true <;> simp [h, ih]

theorem map_sortByKey {α β : Type} (key1 : α → Option ℚ) (key2 : β → Option ℚ)
    (F : α → β) (hF : ∀ a, key2 (F a) = key1 a) (l : List α) :
    sortByKey key2 (l.map F) = (sortByKey key1 l).map F := by
  induction l with
  | nil => rfl
  | cons x xs ih =>
    simp only [List.map, sortByKey]
    rw [ih, map_insertByKey key1 key2 F hF]

theorem keyLe_antisymm {a b : Option ℚ} (h1 : keyLe a b = true) (h2 : keyLe b a = true) :
    a = b := by
  cases a <;> cases b <;> simp [keyLe] at *
  exact le_antisymm h1 h2

theorem firstMinBy_eq_none {α : Type} {key : α → Option ℚ} {l : List α}
    (h : firstMinBy key l = none) : l = [] := by
  cases l with
  | nil => rfl
  | cons x xs =>
    obtain ⟨m, hm⟩ := firstMinBy_cons_isSome key x xs
    rw [hm] at h
    exact Option.noConfusion h

theorem firstMinBy_le {α : Type} {key : α → Option ℚ} : ∀ {l : List α} {m : α},
    firstMinBy key l = some m → ∀ q ∈ l, keyLe (key m) (key q) = true := by
  intro l
  induction l with
  | nil =>
    intro m h q hq
    exact absurd hq (List.not_mem_nil q)
  | cons x xs ih =>
    intro m h q hq
    cases hfm : firstMinBy key xs with
    | none =>
      have hxs := firstMinBy_eq_none hfm
      subst hxs
      simp only [firstMinBy] at h
      injection h with h
      subst h
      rcases List.mem_cons.mp hq with rfl | hq'
      · exact keyLe_refl _
      · exact absurd hq' (List.not_mem_nil q)
    | some m' =>
      simp only [firstMinBy, hfm] at h
      by_cases hc : keyLe (key x) (key m') = true
      · rw [if_pos hc] at h
        injection h with h
        subst h
        rcases List.mem_cons.mp hq with rfl | hq'
        · exact keyLe_refl _
        · exact keyLe_trans hc (ih hfm q hq')
      · rw [if_neg hc] at h
        injection h with h
        subst h
        rcases List.mem_cons.mp hq with rfl | hq'
        · rcases keyLe_total (key q) (key m') with h' | h'
          · exact absurd h' hc
          · exact h'
        · exact ih hfm q hq'

theorem mem_insertByKeyLate {α : Type} (key : α → Option ℚ) (x a : α) (l : List α) :
    a ∈ insertByKeyLate key x l ↔ a = x ∨ a ∈ l := by
  induction l with
  | nil => simp [insertByKeyLate]
  | cons y ys ih =>
    simp only [insertByKeyLate]
    by_cases h : keyLt (key x) (key y) = true
    · simp [h, List.mem_cons]
    · simp [h, List.mem_cons, ih]
      tauto

theorem pairwise_insertByKeyLate {α : Type} (key : α → Option ℚ) (x : α) {l : List α}
    (hl : List.Pairwise (fun a b => keyLe (key a) (key b) = true) l) :
    List.Pairwise (fun a b => keyLe (key a) (key b) = true) (insertByKeyLate key x l) := by
  induction l with
  | nil => simp [insertByKeyLate]
  | cons y ys ih =>
    rcases List.pairwise_cons.mp hl with ⟨hy, hys⟩
    simp only [insertByKeyLate]
    by_cases h : keyLt (key x) (key y) = true
    · rw [if_pos h]
      have hxy : keyLe (key x) (key y) = true := by
        rcases keyLe_total (key x) (key y) with h' | h'
        · exact h'
        · rw [keyLt, h'] at h
          exact absurd h (by simp)
      refine List.pairwise_cons.mpr ⟨?_, hl⟩
      intro b hb
      rcases List.mem_cons.mp hb with rfl | hb'
      · exact hxy
      · exact keyLe_trans hxy (hy b hb')
    · rw [if_neg h]
      have hyx : keyLe (key y) (key x) = true := by
        rw [keyLt] at h
        cases hk : keyLe (key y) (key x) with
        | true => rfl
        | false =>
          rw [hk] at h
          exact absurd rfl h
      refine List.pairwise_cons.mpr ⟨?_, ih hys⟩
      intro b hb
      rcases (mem_insertByKeyLate key x b ys).mp hb with hbx | hb'
      · subst hbx
        exact hyx
      · exact hy b hb'

theorem pairwise_sortByKeyLate {α : Type} (key : α → Option ℚ) (l : List α) :
    List.Pairwise (fun a b => keyLe (key a) (key b) = true) (sortByKeyLate key l) := by
  induction l with
  | nil => exact List.Pairwise.nil
  | cons x xs ih => exact pairwise_insertByKeyLate key x ih

theorem perm_insertByKey {α : Type} (key : α → Option ℚ) (x : α) (l : List α) :
    (insertByKey key x l).Perm (x :: l) := by
  induction l with
  | nil => exact List.Perm.refl _
  | cons y ys ih =>
    simp only [insertByKey]
    by_cases h : keyLe (key x) (key y) = true
    · rw [if_pos h]
    · rw [if_neg h]
      exact (List.Perm.cons y ih).trans (List.Perm.swap x y ys)

theorem perm_sortByKey {α : Type} (key : α → Option ℚ) (l : List α) :
    (sortByKey key l).Perm l := by
  induction l with
  | nil => exact List.Perm.refl _
  | cons x xs ih =>
    exact (perm_insertByKey key x (sortByKey key xs)).trans (List.Perm.cons x ih)

theorem perm_insertByKeyLate {α : Type} (key : α → Option ℚ) (x : α) (l : List α) :
    (insertByKeyLate key x l).Perm (x :: l) := by
  induction l with
  | nil => exact List.Perm.refl _
  | cons y ys ih =>
    simp only [insertByKeyLate]
    by_cases h : keyLt (key x) (key y) = true
    · rw [if_pos h]
    · rw [if_neg h]
      exact (List.Perm.cons y ih).trans (List.Perm.swap x y ys)

theorem perm_sortByKeyLate {α : Type} (key : α → Option ℚ) (l : List α) :
    (sortByKeyLate key l).Perm l := by
  induction l with
  | nil => exact List.Perm.refl _
  | cons x xs ih =>
    exact (perm_insertByKeyLate key x (sortByKeyLate key xs)).trans (List.Perm.cons x ih)

theorem validSortValues_sortByKey {α : Type} : ValidSortValues (@sortByKey α) := by
  intro key l
  exact ⟨perm_sortByKey key l, pairwise_sortByKey key l⟩

theorem validSortValues_sortByKeyLate {α : Type} : ValidSortValues (@sortByKeyLate α) := by
  intro key l
  exact ⟨perm_sortByKeyLate key l, pairwise_sortByKeyLate key l⟩

theorem validSortValues_unstable {α : Type} : ValidSortValues (@unstableSortValues α) := by
  intro key l
  rw [unstableSortValues]
  by_cases h : (l.all (fun a =>
      match key a with
      | some q => decide (q < 1000000)
      | none => false)) = true
  · rw [if_pos h]
    exact validSortValues_sortByKeyLate key l
  · rw [if_neg h]
    exact validSortValues_sortByKey key l

/-! ## Agreement of the kernel-computable scalar helpers -/

theorem ratSub_eq (a b : ℚ) : ratSub a b = a - b := by
  rw [ratSub, Rat.mkRat_eq_div]
  have ha : (a.den : ℚ) ≠ 0 := Nat.cast_ne_zero.mpr a.den_nz
  have hb : (b.den : ℚ) ≠ 0 := Nat.cast_ne_zero.mpr b.den_nz
  push_cast
  conv_rhs => rw [← Rat.num_div_den a, ← Rat.num_div_den b]
  rw [div_sub_div _ _ ha hb]
  congr 1
  ring

theorem ratAbs_eq (q : ℚ) : ratAbs q = |q| := by
  rw [ratAbs, Rat.mkRat_eq_div]
  have hd : (0 : ℚ) < (q.den : ℚ) := by exact_mod_cast q.pos
  have habs : |q| = |(q.num : ℚ)| / (q.den : ℚ) := by
    conv_lhs => rw [← Rat.num_div_den q]
    rw [abs_div, abs_of_pos hd]
  rw [habs]
  congr 1
  push_cast [Int.cast_natAbs]
  rfl

theorem ratDiv1000_eq (q : ℚ) : ratDiv1000 q = q / 1000 := by
  rw [ratDiv1000, Rat.mkRat_eq_div]
  push_cast
  conv_rhs => rw [← Rat.num_div_den q]
  rw [div_div]

theorem ratMul1000_eq (q : ℚ) : ratMul1000 q = 1000 * q := by
  rw [ratMul1000, Rat.mkRat_eq_div]
  push_cast
  conv_rhs => rw [← Rat.num_div_den q]
  rw [mul_div_assoc]

theorem ratDiv1000_ratMul1000 (q : ℚ) : ratDiv1000 (ratMul1000 q) = q := by
  rw [ratDiv1000_eq, ratMul1000_eq]
  field_simp

/-! ## Lemmas about the transport loop -/

theorem attemptStep_inr_of_not2xx (cfg : HTTPConfig) (s : Nat)
    (h : ¬ (200 ≤ s ∧ s < 300)) : ∃ e, attemptStep cfg (Outcome.resp s) = Sum.inr e := by
  simp only [attemptStep, if_neg h]
  cases (if s ∈ cfg.no_retry_on then raiseForStatus s else none) with
  | some e => exact ⟨some e, rfl⟩
  | none =>
    cases (if s ∉ cfg.retry_on then raiseForStatus s else none) with
    | some e => exact ⟨some e, rfl⟩
    | none => exact ⟨none, rfl⟩

theorem attemptStep_inr_of_retryable (cfg : HTTPConfig) (o : Outcome)
    (h : retryableOutcome cfg o = true) : ∃ e, attemptStep cfg o = Sum.inr e := by
  cases o with
  | netErr eid => exact ⟨some (Exc.reqExc eid), rfl⟩
  | resp s =>
    simp only [retryableOutcome, Bool.and_eq_true, decide_eq_true_eq] at h
    exact attemptStep_inr_of_not2xx cfg s h.1

theorem attemptStep_2xx (cfg : HTTPConfig) (s : Nat) (h : 200 ≤ s ∧ s < 300) :
    attemptStep cfg (Outcome.resp s) = Sum.inl s := by
  simp [attemptStep, h]

theorem attemptStep_retry_status (cfg : HTTPConfig) (s : Nat)
    (h2xx : ¬ (200 ≤ s ∧ s < 300)) (hr : s ∈ cfg.retry_on) (hnr : s ∉ cfg.no_retry_on) :
    attemptStep cfg (Outcome.resp s) = Sum.inr none := by
  simp only [attemptStep, if_neg h2xx, if_neg hnr]
  rw [if_neg (not_not_intro hr)]

theorem getLoop_succ_inl (cfg : HTTPConfig) (outs : List Outcome)
    (r made : Nat) (lastExc : Option Exc) (sleeps : Nat) (s : Nat)
    (h : attemptStep cfg (outs.headD (Outcome.netErr 0)) = Sum.inl s) :
    getLoop cfg outs (r + 1) made lastExc sleeps
      = GetResult.success s (made + 1) sleeps := by
  simp only [getLoop, h]

theorem getLoop_succ_inr (cfg : HTTPConfig) (outs : List Outcome)
    (r made : Nat) (lastExc : Option Exc) (sleeps : Nat) (e : Option Exc)
    (h : attemptStep cfg (outs.headD (Outcome.netErr 0)) = Sum.inr e) :
    getLoop cfg outs (r + 1) made lastExc sleeps
      = getLoop cfg outs.tail r (made + 1)
          (match e with
           | some e' => some e'
           | none => lastExc)
          (if 0 < r then sleeps + 1 else sleeps) := by
  cases e with
  | some e' => simp only [getLoop, h]
  | none => simp only [getLoop, h]

theorem getLoop_succ_inrSome (cfg : HTTPConfig) (outs : List Outcome)
    (r made : Nat) (lastExc : Option Exc) (sleeps : Nat) (e' : Exc)
    (h : attemptStep cfg (outs.headD (Outcome.netErr 0)) = Sum.inr (some e')) :
    getLoop cfg outs (r + 1) made lastExc sleeps
      = getLoop cfg outs.tail r (made + 1) (some e')
          (if 0 < r then sleeps + 1 else sleeps) := by
  simp only [getLoop, h]

theorem getLoop_succ_inrNone (cfg : HTTPConfig) (outs : List Outcome)
    (r made : Nat) (lastExc : Option Exc) (sleeps : Nat)
    (h : attemptStep cfg (outs.headD (Outcome.netErr 0)) = Sum.inr none) :
    getLoop cfg outs (r + 1) made lastExc sleeps
      = getLoop cfg outs.tail r (made + 1) lastExc
          (if 0 < r then sleeps + 1 else sleeps) := by
  simp only [getLoop, h]

theorem getLoop_retry_prefix (cfg : HTTPConfig) (s : Nat) (rest : List Outcome)
    (hs : 200 ≤ s ∧ s < 300) :
    ∀ (pre : List Outcome), (∀ o ∈ pre, retryableOutcome cfg o = true) →
    ∀ (r made : Nat) (lastExc : Option Exc) (sleeps : Nat), pre.length < r →
    getLoop cfg (pre ++ Outcome.resp s :: rest) r made lastExc sleeps
      = GetResult.success s (made + pre.length + 1) (sleeps + pre.length) := by
  intro pre
  induction pre with
  | nil =>
    intro _ r made lastExc sleeps hr
    obtain ⟨r', rfl⟩ : ∃ r', r = r' + 1 := ⟨r - 1, by omega⟩
    rw [List.nil_append]
    rw [getLoop_succ_inl cfg (Outcome.resp s :: rest) r' made lastExc sleeps s
      (attemptStep_2xx cfg s hs)]
    simp
  | cons o pre ih =>
    intro hpre r made lastExc sleeps hr
    obtain ⟨r', rfl⟩ : ∃ r', r = r' + 1 := ⟨r - 1, by omega⟩
    have hr' : pre.length < r' := by
      simp only [List.length_cons] at hr
      omega
    obtain ⟨e, he⟩ := attemptStep_inr_of_retryable cfg o (hpre o (List.mem_cons_self o pre))
    rw [List.cons_append]
    rw [getLoop_succ_inr cfg (o :: (pre ++ Outcome.resp s :: rest)) r' made lastExc sleeps e he]
    simp only [List.tail_cons]
    rw [if_pos (by omega : 0 < r')]
    rw [ih (fun o' ho' => hpre o' (List.mem_cons_of_mem o ho')) r' (made + 1) _ (sleeps + 1) hr']
    have h1 : made + 1 + pre.length + 1 = made + (o :: pre).length + 1 := by
      simp only [List.length_cons]; omega
    have h2 : sleeps + 1 + pre.length = sleeps + (o :: pre).length := by
      simp only [List.length_cons]; omega
    rw [h1, h2]

theorem getLoop_all_netErr (cfg : HTTPConfig) (rest : List Outcome) (lastE : Nat) :
    ∀ (front : List Nat) (made : Nat) (lastExc : Option Exc) (sleeps : Nat),
    getLoop cfg ((front ++ [lastE]).map Outcome.netErr ++ rest)
        (front.length + 1) made lastExc sleeps
      = GetResult.failure (Exc.reqExc lastE) (made + front.length + 1) (sleeps + front.length) := by
  intro front
  induction front with
  | nil =>
    intro made lastExc sleeps
    simp only [List.nil_append, List.map_cons, List.map_nil, List.cons_append,
      List.length_nil]
    rw [getLoop_succ_inrSome cfg (Outcome.netErr lastE :: rest) 0 made lastExc sleeps
      (Exc.reqExc lastE) rfl]
    simp [getLoop]
  | cons a front ih =>
    intro made lastExc sleeps
    simp only [List.cons_append, List.map_cons, List.length_cons]
    rw [getLoop_succ_inrSome cfg
      (Outcome.netErr a :: (List.map Outcome.netErr (front ++ [lastE]) ++ rest))
      (front.length + 1) made lastExc sleeps (Exc.reqExc a) rfl]
    simp only [List.tail_cons]
    rw [if_pos (by omega : 0 < front.length + 1)]
    rw [ih (made + 1) (some (Exc.reqExc a)) (sleeps + 1)]
    have h1 : made + 1 + front.length + 1 = made + (front.length + 1) + 1 := by omega
    have h2 : sleeps + 1 + front.length = sleeps + (front.length + 1) := by omega
    rw [h1, h2]

theorem getLoop_all_retryStatus (cfg : HTTPConfig) (rest : List Outcome) :
    ∀ (ss : List Nat),
    (∀ s ∈ ss, ¬ (200 ≤ s ∧ s < 300) ∧ s ∈ cfg.retry_on ∧ s ∉ cfg.no_retry_on) →
    ∀ (made sleeps : Nat), ss ≠ [] →
    getLoop cfg (ss.map Outcome.resp ++ rest) ss.length made none sleeps
      = GetResult.failure Exc.runtimeError (made + ss.length) (sleeps + ss.length - 1) := by
  intro ss
  induction ss with
  | nil => intro _ _ _ h; exact absurd rfl h
  | cons s ss ih =>
    intro hall made sleeps _
    obtain ⟨h2xx, hr, hnr⟩ := hall s (List.mem_cons_self s ss)
    cases ss with
    | nil =>
      simp only [List.map_cons, List.map_nil, List.cons_append, List.nil_append,
        List.length_cons, List.length_nil]
      rw [getLoop_succ_inrNone cfg (Outcome.resp s :: rest) 0 made none sleeps
        (attemptStep_retry_status cfg s h2xx hr hnr)]
      simp [getLoop]
    | cons s2 ss2 =>
      simp only [List.map_cons, List.cons_append, List.length_cons]
      rw [getLoop_succ_inrNone cfg
        (Outcome.resp s :: Outcome.resp s2 :: (List.map Outcome.resp ss2 ++ rest))
        (ss2.length + 1) made none sleeps
        (attemptStep_retry_status cfg s h2xx hr hnr)]
      simp only [List.tail_cons]
      rw [if_pos (by omega : 0 < ss2.length + 1)]
      have hih := ih (fun s' hs' => hall s' (List.mem_cons_of_mem s hs')) (made + 1)
        (sleeps + 1) (by simp)
      simp only [List.map_cons, List.cons_append, List.length_cons] at hih
      rw [hih]
      have h1 : made + 1 + (ss2.length + 1) = made + (ss2.length + 1 + 1) := by omega
      have h2 : sleeps + 1 + (ss2.length + 1) - 1 = sleeps + (ss2.length + 1 + 1) - 1 := by
        omega
      rw [h1, h2]

/-! ## Claim theorems for the transport -/

/-- Claim C1: the claim says a status in the no-retry set fails after
exactly one attempt with zero sleeps.  The code instead catches the
`HTTPError` raised by `raise_for_status` (it is a `RequestException`),
so with the default configuration a 404 on every attempt consumes all 3
attempts, sleeps twice, and only then surfaces the HTTP error. -/
theorem no_retry_status_retried :
    ResilientHTTP.get defaultHTTPConfig
        [Outcome.resp 404, Outcome.resp 404, Outcome.resp 404]
      = GetResult.failure (Exc.httpError 404) 3 2 := by
  decide

/-- Claim C8: retry determinism.  (1) With the first `n-1` simulated
outcomes retryable and the `n`-th a 2xx success, `n` within the attempt
budget, the call returns that success after exactly `n` attempts and
`n-1` sleeps.  (2) When every attempt raises a request exception, the
last captured exception is raised after the final attempt.  (3) When
every attempt sees a retry-set status (so nothing is captured), the
generic transport failure is raised. -/
theorem transport_retry_determinism :
    (∀ (cfg : HTTPConfig) (pre : List Outcome) (s : Nat) (rest : List Outcome),
       (∀ o ∈ pre, retryableOutcome cfg o = true) → 200 ≤ s → s < 300 →
       pre.length < cfg.attempts →
       ResilientHTTP.get cfg (pre ++ Outcome.resp s :: rest)
         = GetResult.success s (pre.length + 1) pre.length)
    ∧ (∀ (cfg : HTTPConfig) (front : List Nat) (lastE : Nat),
       cfg.attempts = front.length + 1 →
       ResilientHTTP.get cfg ((front ++ [lastE]).map Outcome.netErr)
         = GetResult.failure (Exc.reqExc lastE) cfg.attempts (cfg.attempts - 1))
    ∧ (∀ (cfg : HTTPConfig) (ss : List Nat),
       ss ≠ [] → cfg.attempts = ss.length →
       (∀ s ∈ ss, ¬ (200 ≤ s ∧ s < 300) ∧ s ∈ cfg.retry_on ∧ s ∉ cfg.no_retry_on) →
       ResilientHTTP.get cfg (ss.map Outcome.resp)
         = GetResult.failure Exc.runtimeError cfg.attempts (cfg.attempts - 1)) := by
  refine ⟨?_, ?_, ?_⟩
  · intro cfg pre s rest hpre h1 h2 hlen
    have := getLoop_retry_prefix cfg s rest ⟨h1, h2⟩ pre hpre cfg.attempts 0 none 0 hlen
    simpa [ResilientHTTP.get] using this
  · intro cfg front lastE hA
    have := getLoop_all_netErr cfg [] lastE front 0 none 0
    rw [List.append_nil] at this
    rw [ResilientHTTP.get, hA, this]
    congr 1 <;> omega
  · intro cfg ss hne hA hall
    have := getLoop_all_retryStatus cfg [] ss hall 0 0 hne
    rw [List.append_nil] at this
    rw [ResilientHTTP.get, hA, this]
    congr 1 <;> omega

/-- Witness for C8: the simulated sequence 503, 503, 200 yields the 200
after exactly 3 attempts and 2 sleeps under the default configuration. -/
theorem transport_retry_determinism_witness :
    ResilientHTTP.get defaultHTTPConfig
        [Outcome.resp 503, Outcome.resp 503, Outcome.resp 200]
      = GetResult.success 200 3 2 :=
  transport_retry_determinism.1 defaultHTTPConfig
    [Outcome.resp 503, Outcome.resp 503] 200 []
    (by decide) (by decide) (by decide) (by decide)

/-! ## Lemmas about the candle normalizer -/

theorem pairwise_fst_buildIndexed (f : Frame) :
    List.Pairwise (fun a b => keyLe a.1 b.1 = true) (buildIndexed f) := by
  cases hts : TS_CANDIDATES.find? (fun c => f.cols.contains c) with
  | none =>
    simp only [buildIndexed, hts]
    rw [List.pairwise_map]
    have henum : List.Pairwise (fun x y => x.1 < y.1) f.rows.enum := by
      rw [List.pairwise_iff_get]
      intro i j hij
      simp only [List.get_eq_getElem, List.getElem_enum]
      exact hij
    refine henum.imp ?_
    intro a b hab
    simp only [keyLe, decide_eq_true_eq]
    rw [Rat.mkRat_eq_div, Rat.mkRat_eq_div]
    have hle : ((a.1 : ℤ) : ℚ) ≤ ((b.1 : ℤ) : ℚ) := by exact_mod_cast hab.le
    gcongr
  | some c =>
    simp only [buildIndexed, hts]
    exact pairwise_sortByKey _ _

theorem pairwise_filterMap_keyed {α β : Type} (g : α → Option β)
    (k1 : α → Option ℚ) (k2 : β → Option ℚ)
    (hg : ∀ a b, g a = some b → k2 b = k1 a) :
    ∀ l : List α, List.Pairwise (fun a b => keyLe (k1 a) (k1 b) = true) l →
      List.Pairwise (fun x y => keyLe (k2 x) (k2 y) = true) (l.filterMap g) := by
  intro l
  induction l with
  | nil =>
    intro _
    simp
  | cons a l ih =>
    intro hp
    rcases List.pairwise_cons.mp hp with ⟨ha, hl⟩
    rw [List.filterMap_cons]
    cases hga : g a with
    | none => exact ih hl
    | some b =>
      refine List.pairwise_cons.mpr ⟨?_, ih hl⟩
      intro y hy
      obtain ⟨c, hc, hgc⟩ := List.mem_filterMap.mp hy
      rw [hg a b hga, hg c y hgc]
      exact ha c hc

/-! ## Lemmas about the fallback resolver -/

theorem fallbackLoop_prefix_success {E D : Type} (allPaths : List String)
    (behavior : String → Except E D) (p : String) (post : List String) (d : D)
    (hp : behavior p = Except.ok d) :
    ∀ (pre : List String), (∀ q ∈ pre, ∃ e, behavior q = Except.error e) →
    ∀ (lastErr : Option E) (called : List String),
    fallbackLoop allPaths behavior (pre ++ p :: post) lastErr called
      = (Except.ok d, called.reverse ++ (pre ++ [p])) := by
  intro pre
  induction pre with
  | nil =>
    intro _ lastErr called
    simp only [List.nil_append, fallbackLoop, hp]
    simp
  | cons q pre ih =>
    intro hpre lastErr called
    obtain ⟨e, he⟩ := hpre q (List.mem_cons_self q pre)
    simp only [List.cons_append, fallbackLoop, he, List.append_eq]
    rw [ih (fun q' hq' => hpre q' (List.mem_cons_of_mem q hq')) (some e) (q :: called)]
    simp

theorem fallbackLoop_all_fail {E D : Type} (allPaths : List String)
    (behavior : String → Except E D) (errOf : String → E) :
    ∀ (paths : List String), (∀ q ∈ paths, behavior q = Except.error (errOf q)) →
    ∀ (lastErr : Option E) (called : List String),
    fallbackLoop (D := D) allPaths behavior paths lastErr called
      = (Except.error
           ⟨allPaths,
            match paths.getLast? with
            | some lp => some (errOf lp)
            | none => lastErr⟩,
         called.reverse ++ paths) := by
  intro paths
  induction paths with
  | nil =>
    intro _ lastErr called
    simp [fallbackLoop]
  | cons q paths ih =>
    intro hall lastErr called
    simp only [fallbackLoop, hall q (List.mem_cons_self q paths)]
    rw [ih (fun q' h => hall q' (List.mem_cons_of_mem q h)) (some (errOf q)) (q :: called)]
    cases paths with
    | nil => simp
    | cons q2 paths2 =>
      obtain ⟨lp, hlp⟩ :=
        Option.isSome_iff_exists.mp
          (List.getLast?_isSome.mpr (List.cons_ne_nil q2 paths2))
      simp [hlp]

/-! ## Claim theorem for the fallback resolver -/

/-- Claim C5: the resolver tries the candidate paths in order, returns
the first successfully parsed result without contacting any later path
(the second component lists the paths actually contacted), and when
every path fails it raises one aggregated error naming all attempted
paths together with the last underlying error. -/
theorem fallback_short_circuit :
    (∀ {E D : Type} (pre : List String) (p : String) (post : List String)
       (behavior : String → Except E D) (d : D),
       (∀ q ∈ pre, ∃ e, behavior q = Except.error e) → behavior p = Except.ok d →
       getWithFallback (pre ++ p :: post) behavior = (Except.ok d, pre ++ [p]))
    ∧ (∀ {E D : Type} (paths : List String) (behavior : String → Except E D)
       (errOf : String → E) (lp : String),
       (∀ q ∈ paths, behavior q = Except.error (errOf q)) →
       paths.getLast? = some lp →
       getWithFallback paths behavior = (Except.error ⟨paths, some (errOf lp)⟩, paths)) := by
  constructor
  · intro E D pre p post behavior d hpre hp
    have := fallbackLoop_prefix_success (pre ++ p :: post) behavior p post d hp pre hpre none []
    simpa [getWithFallback] using this
  · intro E D paths behavior errOf lp hall hlast
    have := fallbackLoop_all_fail paths behavior errOf paths hall none []
    rw [hlast] at this
    simpa [getWithFallback] using this

/-- Witness for C5: with path `A` failing and `B` succeeding, the
resolver returns the payload of `B` having contacted exactly `A` then
`B`; path `C` is never contacted. -/
theorem fallback_short_circuit_witness :
    getWithFallback ["A", "B", "C"] demoBehavior = (Except.ok 42, ["A", "B"]) :=
  fallback_short_circuit.1 ["A"] "B" ["C"] demoBehavior 42
    (by
      intro q hq
      rcases List.mem_singleton.mp hq with rfl
      exact ⟨1, rfl⟩)
    (by simp [demoBehavior])

/-! ## Claim theorems for the products envelope -/

/-- Counterexample to claim C6: for a response whose `result` field
holds a non-empty object while `data` holds the list, the claim (use
the first key whose value is a list) prescribes the list under `data`,
but the loader raises the schema error instead, because the Python
`or`-chain selects the first truthy value, not the first list. -/
theorem products_envelope_counterexample :
    productsItems wrappedProductsResponse
        = Except.error "Products response does not contain a valid list of products"
      ∧ claimProductsItems wrappedProductsResponse = Except.ok [1, 2] :=
  ⟨rfl, rfl⟩

/-- Claim C6 as amended: the loader accepts a top-level list; otherwise
it selects the first key among `result`, `data`, `products` whose value
is truthy (falling back to the value of the last key when none is
truthy) and succeeds exactly when that selected value is a list, failing
with the schema error otherwise. -/
theorem products_envelope_amended :
    ∀ d, productsItems d = amendedProductsItems d := by
  intro d
  cases d with
  | plist items => rfl
  | pobj fields =>
    simp only [productsItems, amendedProductsItems, List.map_cons, List.map_nil]
    by_cases hr : pyTruthy (dictGet fields "result") <;>
      by_cases hd : pyTruthy (dictGet fields "data") <;>
      by_cases hp : pyTruthy (dictGet fields "products") <;>
      simp [pyOr, hr, hd, hp, List.find?]

/-! ## Claim theorems for the auto-selection filters -/

/-- Claim C7: for a catalog whose option rows all match the root but
none has a future (or any) expiry, the selection fails with the
no-future-expiry error kind; the earlier filter stages do not mask it. -/
theorem selection_filter_ordering :
    ∀ (catalog : List Product) (root underlying pref : String) (now : ℚ)
      (spot : Option ℚ),
    optionsFilter catalog ≠ [] →
    (∀ p ∈ optionsFilter catalog, rootPred root underlying p = true) →
    (∀ p ∈ optionsFilter catalog, futurePred now p = false) →
    autoSelectOptionPid catalog root underlying pref now spot
      = Except.error SelErr.noFutureExpiry := by
  intro catalog root und pref now spot h1 h2 h3
  have e1 : (optionsFilter catalog).isEmpty = false := by
    cases h : optionsFilter catalog with
    | nil => exact absurd h h1
    | cons a l => rfl
  have e2 : rootFilter root und (optionsFilter catalog) = optionsFilter catalog :=
    List.filter_eq_self.mpr h2
  have e3 : futureFilter now (optionsFilter catalog) = [] :=
    List.filter_eq_nil_iff.mpr (fun p hp => by simp [h3 p hp])
  simp [autoSelectOptionPid, e1, e2, e3]

/-- Witness for C7: a catalog holding one past-expiry put and one
expiry-less call, both rooted at ETH, fails with the no-future-expiry
error. -/
theorem selection_filter_ordering_witness :
    autoSelectOptionPid stalePairCatalog "ETH" "ETHUSD" "both" scenarioNow (some 2050)
      = Except.error SelErr.noFutureExpiry :=
  selection_filter_ordering stalePairCatalog "ETH" "ETHUSD" "both" scenarioNow (some 2050)
    (by decide) (by decide) (by decide)

/-! ## Claim theorems for instrument resolution -/

/-- Counterexample to claim C3: with no explicit overrides and
auto-selection enabled, an auto-selection failure (here the
no-future-expiry error on a concrete catalog) is not propagated by
`pick_option_instrument`; the function catches it and returns the
option root symbol as a fallback instrument identifier. -/
theorem selection_error_fallback_counterexample :
    autoSelectOptionPid pastExpiryCatalog "ETH" "ETHUSD" "both" scenarioNow (some 2050)
        = Except.error SelErr.noFutureExpiry
      ∧ pickOptionInstrument "" "" true "product_id"
          (autoSelectOptionPid pastExpiryCatalog "ETH" "ETHUSD" "both" scenarioNow (some 2050))
          (fun _ => none) "ETH"
        = Except.ok "ETH" :=
  ⟨by decide, by decide⟩

/-- Claim C3 as amended: when auto-selection raises any selection
error, `pick_option_instrument` catches it, and — with no explicit
override configured — falls back to returning the option root symbol
instead of propagating the failure. -/
theorem selection_error_fallback_amended :
    ∀ (e : SelErr) (symbolParam : String) (symLookup : Nat → Option String)
      (root : String),
    pickOptionInstrument "" "" true symbolParam (Except.error e) symLookup root
      = Except.ok root := by
  intro e sp lookup root
  rfl

/-! ## Claim theorem for the at-the-money selection -/

theorem isEmpty_false_of_ne_nil {α : Type} {l : List α} (h : l ≠ []) :
    l.isEmpty = false := by
  cases l with
  | nil => exact absurd rfl h
  | cons a t => rfl

theorem typeFilter_nil (pref : String) : typeFilter pref [] = [] := by
  rw [typeFilter]
  by_cases h : (pref == "call" || pref == "put") = true <;> simp [h]

/-- The direct model is the parameterized model realized with the stable
insertion sort; one admissible realization of `sort_values` among many. -/
theorem autoSelectOptionPid_eq_with (catalog : List Product) (root und pref : String)
    (now : ℚ) (spot : Option ℚ) :
    autoSelectOptionPid catalog root und pref now spot
      = autoSelectOptionPidWith sortByKey catalog root und pref now spot := rfl

/-- For every sorting function meeting the `sort_values` contract:
whenever the four filters leave a survivor and spot is positive, the
selection returns the id of some row of the minimum-expiry cohort whose
strike distance to spot is minimal within that cohort. -/
theorem autoSelectWith_min_choice
    (sortF : (Product → Option ℚ) → List Product → List Product)
    (hvalid : ValidSortValues sortF)
    (catalog : List Product) (root und pref : String) (now sp : ℚ)
    (hsp : 0 < sp)
    (hS : selectionSurvivors catalog root und pref now ≠ []) :
    ∃ chosen,
      autoSelectOptionPidWith sortF catalog root und pref now (some sp)
        = Except.ok (some chosen.product_id) ∧
      chosen ∈ minExpiryCohort (selectionSurvivors catalog root und pref now) ∧
      ∀ q ∈ minExpiryCohort (selectionSurvivors catalog root und pref now),
        keyLe (absStrikeDist sp chosen) (absStrikeDist sp q) = true := by
  have hdf3 : futureFilter now (rootFilter root und (optionsFilter catalog)) ≠ [] := by
    intro hc
    apply hS
    rw [selectionSurvivors, hc, typeFilter_nil]
  have hdf2 : rootFilter root und (optionsFilter catalog) ≠ [] := by
    intro hc
    apply hdf3
    rw [hc, futureFilter, List.filter_nil]
  have hdf1 : optionsFilter catalog ≠ [] := by
    intro hc
    apply hdf2
    rw [hc, rootFilter, List.filter_nil]
  have e1 := isEmpty_false_of_ne_nil hdf1
  have e2 := isEmpty_false_of_ne_nil hdf2
  have e3 := isEmpty_false_of_ne_nil hdf3
  have eS := isEmpty_false_of_ne_nil hS
  rw [selectionSurvivors] at eS
  have hnle : ¬ (sp ≤ 0) := not_le.mpr hsp
  obtain ⟨hperm1, hpw1⟩ := hvalid (fun p => p.expiry_dt)
    (selectionSurvivors catalog root und pref now)
  have hSne : sortF (fun p => p.expiry_dt)
      (selectionSurvivors catalog root und pref now) ≠ [] := by
    intro hc
    apply hS
    have hlen := hperm1.length_eq
    rw [hc] at hlen
    exact List.length_eq_zero.mp hlen.symm
  obtain ⟨m, rest, hsort1⟩ := List.exists_cons_of_ne_nil hSne
  rw [hsort1] at hperm1 hpw1
  have hmS : m ∈ selectionSurvivors catalog root und pref now :=
    hperm1.mem_iff.mp (List.mem_cons_self m rest)
  have hm_min : ∀ q ∈ selectionSurvivors catalog root und pref now,
      keyLe m.expiry_dt q.expiry_dt = true := by
    intro q hq
    rcases List.mem_cons.mp (hperm1.mem_iff.mpr hq) with rfl | hq'
    · exact keyLe_refl _
    · exact (List.pairwise_cons.mp hpw1).1 q hq'
  cases hfm' : firstMinBy (fun p => p.expiry_dt)
      (selectionSurvivors catalog root und pref now) with
  | none => exact absurd (firstMinBy_eq_none hfm') hS
  | some m' =>
    have hexp : m.expiry_dt = m'.expiry_dt :=
      keyLe_antisymm (hm_min m' (firstMinBy_mem hfm')) (firstMinBy_le hfm' m hmS)
    have hcoh : minExpiryCohort (selectionSurvivors catalog root und pref now)
        = (selectionSurvivors catalog root und pref now).filter
            (fun p => decide (p.expiry_dt = m.expiry_dt)) := by
      simp only [minExpiryCohort, hfm', hexp]
    have hmcexp : m ∈ (m :: rest).filter (fun p => decide (p.expiry_dt = m.expiry_dt)) :=
      List.mem_filter.mpr ⟨List.mem_cons_self m rest, by simp⟩
    have hcexp_ne : (m :: rest).filter (fun p => decide (p.expiry_dt = m.expiry_dt)) ≠ [] :=
      List.ne_nil_of_mem hmcexp
    have hcexp_perm :
        ((m :: rest).filter (fun p => decide (p.expiry_dt = m.expiry_dt))).Perm
          ((selectionSurvivors catalog root und pref now).filter
            (fun p => decide (p.expiry_dt = m.expiry_dt))) :=
      hperm1.filter _
    obtain ⟨hperm2, hpw2⟩ := hvalid (absStrikeDist sp)
      ((m :: rest).filter (fun p => decide (p.expiry_dt = m.expiry_dt)))
    have hs2ne : sortF (absStrikeDist sp)
        ((m :: rest).filter (fun p => decide (p.expiry_dt = m.expiry_dt))) ≠ [] := by
      intro hc
      apply hcexp_ne
      have hlen := hperm2.length_eq
      rw [hc] at hlen
      exact List.length_eq_zero.mp hlen.symm
    obtain ⟨best, rest2, hsort2⟩ := List.exists_cons_of_ne_nil hs2ne
    rw [hsort2] at hperm2 hpw2
    have hbest_cexp :
        best ∈ (m :: rest).filter (fun p => decide (p.expiry_dt = m.expiry_dt)) :=
      hperm2.mem_iff.mp (List.mem_cons_self best rest2)
    have hbest_min :
        ∀ q ∈ (m :: rest).filter (fun p => decide (p.expiry_dt = m.expiry_dt)),
          keyLe (absStrikeDist sp best) (absStrikeDist sp q) = true := by
      intro q hq
      rcases List.mem_cons.mp (hperm2.mem_iff.mpr hq) with rfl | hq'
      · exact keyLe_refl _
      · exact (List.pairwise_cons.mp hpw2).1 q hq'
    refine ⟨best, ?_, ?_, ?_⟩
    · simp only [selectionSurvivors] at hsort1
      simp only [autoSelectOptionPidWith, e1, e2, e3, eS, hnle, Bool.false_eq_true, if_false,
        Bool.and_false, hsort1, isEmpty_false_of_ne_nil hcexp_ne, hsort2]
    · rw [hcoh]
      exact hcexp_perm.mem_iff.mp hbest_cexp
    · intro q hq
      rw [hcoh] at hq
      exact hbest_min q (hcexp_perm.mem_iff.mpr hq)

/-- Counterexample to claim C2: the claim's universal tie-break — the
first-encountered row wins among equal strike distances — is not forced
by the program, because `sort_values` uses the default unstable
quicksort.  `unstableSortValues` meets the `sort_values` contract, yet
on a catalog whose nearest-expiry cohort ties a call and a put at the
same strike it selects product id 12 (the later-listed put), while the
stable realization selects 11, which is also the first-encountered
minimum of the claim's reading.  Two admissible executions of the same
code disagree, so the claimed output is not a program property. -/
theorem atm_selection_stable_tie_counterexample :
    ValidSortValues (@unstableSortValues Product) ∧
    autoSelectOptionPidWith unstableSortValues tieCatalog "ETH" "ETHUSD" "both" scenarioNow
      (some 2050) = Except.ok (some 12) ∧
    autoSelectOptionPidWith sortByKey tieCatalog "ETH" "ETHUSD" "both" scenarioNow
      (some 2050) = Except.ok (some 11) ∧
    (firstMinBy (absStrikeDist 2050)
        (minExpiryCohort
          (selectionSurvivors tieCatalog "ETH" "ETHUSD" "both" scenarioNow))).map
      (fun p => p.product_id) = some 11 :=
  ⟨validSortValues_unstable, by decide, by decide, by decide⟩

/-- Claim C2 as amended: for every sorting function meeting the
`sort_values` contract, whenever the four selection filters leave at
least one survivor and the spot probe is positive, the algorithm
returns the id of a row of the minimum-expiry cohort whose strike
distance to spot is minimal within that cohort — which row among
equally distant ones is left unspecified; and on the tie-free
two-expiry ETH scenario with spot 2050 every such realization returns
the nearest-expiry strike-2000 contract (product id 1), not the
globally closest strike. -/
theorem atm_selection_cohort_then_strike :
    (∀ (sortF : (Product → Option ℚ) → List Product → List Product),
       ValidSortValues sortF →
       ∀ (catalog : List Product) (root und pref : String) (now sp : ℚ),
       0 < sp →
       selectionSurvivors catalog root und pref now ≠ [] →
       ∃ chosen,
         autoSelectOptionPidWith sortF catalog root und pref now (some sp)
           = Except.ok (some chosen.product_id) ∧
         chosen ∈ minExpiryCohort (selectionSurvivors catalog root und pref now) ∧
         ∀ q ∈ minExpiryCohort (selectionSurvivors catalog root und pref now),
           keyLe (absStrikeDist sp chosen) (absStrikeDist sp q) = true)
    ∧ (∀ (sortF : (Product → Option ℚ) → List Product → List Product),
       ValidSortValues sortF →
       autoSelectOptionPidWith sortF ethScenarioCatalog "ETH" "ETHUSD" "both" scenarioNow
         (some 2050) = Except.ok (some 1)) := by
  constructor
  · intro sortF hvalid catalog root und pref now sp hsp hS
    exact autoSelectWith_min_choice sortF hvalid catalog root und pref now sp hsp hS
  · intro sortF hvalid
    obtain ⟨chosen, hres, hmem, hmin⟩ :=
      autoSelectWith_min_choice sortF hvalid ethScenarioCatalog "ETH" "ETHUSD" "both"
        scenarioNow 2050 (by decide) (by decide)
    have hcoh : minExpiryCohort
        (selectionSurvivors ethScenarioCatalog "ETH" "ETHUSD" "both" scenarioNow)
        = [⟨1, "ETH-03D-2000-C", "call_options", "ETHUSD", "call", some 2000,
             some 1755259200⟩,
           ⟨2, "ETH-03D-2400-C", "call_options", "ETHUSD", "call", some 2400,
             some 1755259200⟩] := by decide
    rw [hcoh] at hmem hmin
    rcases List.mem_cons.mp hmem with rfl | hmem'
    · exact hres
    · rcases List.mem_cons.mp hmem' with rfl | h0
      · exact absurd
          (hmin ⟨1, "ETH-03D-2000-C", "call_options", "ETHUSD", "call", some 2000,
             some 1755259200⟩ (List.mem_cons_self _ _))
          (by decide)
      · exact absurd h0 (List.not_mem_nil chosen)

/-- Witness for C2 as amended: the stable insertion sort meets the
`sort_values` contract, the ETH scenario hypotheses hold, and the
scenario half of the theorem applied at that realization returns
product id 1. -/
theorem atm_selection_cohort_then_strike_witness :
    ValidSortValues (@sortByKey Product) ∧
    (0 : ℚ) < 2050 ∧
    selectionSurvivors ethScenarioCatalog "ETH" "ETHUSD" "both" scenarioNow ≠ [] ∧
    autoSelectOptionPidWith sortByKey ethScenarioCatalog "ETH" "ETHUSD" "both" scenarioNow
      (some 2050) = Except.ok (some 1) :=
  ⟨validSortValues_sortByKey, by decide, by decide,
   atm_selection_cohort_then_strike.2 sortByKey validSortValues_sortByKey⟩

/-! ## Claim theorems for candle normalization invariants -/

/-- Counterexample to claim C4: a payload with two rows sharing the
epoch-millisecond timestamp 2×10¹² keeps both rows in the normalized
series (same index instant, differing closes): timestamps are not
strictly increasing and no duplicate-collapse policy is applied. -/
theorem candle_duplicate_counterexample :
    ensureOhlcIndexed (some dupTsFrame)
        = Except.ok [⟨some 2000000000, 1, 2, 0, 1⟩, ⟨some 2000000000, 1, 2, 0, 2⟩]
      ∧ (⟨some 2000000000, 1, 2, 0, 1⟩ : NormRow).ts
          = (⟨some 2000000000, 1, 2, 0, 2⟩ : NormRow).ts
      ∧ (⟨some 2000000000, 1, 2, 0, 1⟩ : NormRow)
          ≠ (⟨some 2000000000, 1, 2, 0, 2⟩ : NormRow) :=
  ⟨by decide, by decide, by decide⟩

/-- Claim C4 as amended: every normalized candle series has
non-decreasing timestamps (missing instants ordered last); duplicate
timestamps are all retained rather than collapsed, and rows with a
missing OHLC value are dropped — every retained row carries four finite
values by construction of the output. -/
theorem candle_timestamps_sorted :
    ∀ (df : Option Frame) (rows : List NormRow),
    ensureOhlcIndexed df = Except.ok rows →
    List.Pairwise (fun a b => keyLe a.ts b.ts = true) rows := by
  intro df rows h
  cases df with
  | none =>
    simp only [ensureOhlcIndexed] at h
    injection h with h
    subst h
    exact List.Pairwise.nil
  | some f =>
    by_cases hemp : f.rows.isEmpty = true
    · simp only [ensureOhlcIndexed, hemp, if_true] at h
      injection h with h
      subst h
      exact List.Pairwise.nil
    · by_cases hcols :
        (["open", "high", "low", "close"].all
          (fun c => (applyRenames f).cols.contains c)) = true
      · simp only [ensureOhlcIndexed, hemp, if_false, hcols, if_true] at h
        injection h with h
        subst h
        refine pairwise_filterMap_keyed _
          (fun p : Option ℚ × List (String × Cell) => p.1)
          (fun r : NormRow => r.ts) ?_
          (buildIndexed (applyRenames f)) (pairwise_fst_buildIndexed (applyRenames f))
        intro p b hpb
        cases h1 : toNum (getCell p.2 "open") <;>
          cases h2 : toNum (getCell p.2 "high") <;>
          cases h3 : toNum (getCell p.2 "low") <;>
          cases h4 : toNum (getCell p.2 "close") <;>
          simp only [h1, h2, h3, h4] at hpb <;>
          first
          | exact Option.noConfusion hpb
          | (injection hpb with hpb
             rw [← hpb])
      · simp only [ensureOhlcIndexed, hemp, if_false, hcols] at h
        exact absurd h (by simp)

/-- Witness for C4 as amended: the normalized duplicate-timestamp series
is non-decreasing. -/
theorem candle_timestamps_sorted_witness :
    List.Pairwise (fun a b => keyLe a.ts b.ts = true)
      [(⟨some 2000000000, 1, 2, 0, 1⟩ : NormRow), ⟨some 2000000000, 1, 2, 0, 2⟩] :=
  candle_timestamps_sorted (some dupTsFrame) _ (by decide)

/-- Claim C10: a non-empty raw candle payload that still lacks one of
the four OHLC columns after renaming makes the normalizer raise the
column-selection `KeyError` rather than return a series, while a null
or empty payload returns the graceful empty series. -/
theorem missing_columns_raise :
    (∀ f : Frame, f.rows ≠ [] →
       (["open", "high", "low", "close"].all
         (fun c => (applyRenames f).cols.contains c)) = false →
       ensureOhlcIndexed (some f)
         = Except.error "KeyError: columns open/high/low/close not all present")
    ∧ ensureOhlcIndexed none = Except.ok []
    ∧ (∀ f : Frame, f.rows = [] → ensureOhlcIndexed (some f) = Except.ok []) := by
  refine ⟨?_, rfl, ?_⟩
  · intro f hne hmiss
    simp only [ensureOhlcIndexed, isEmpty_false_of_ne_nil hne, Bool.false_eq_true,
      if_false, hmiss]
  · intro f he
    simp [ensureOhlcIndexed, he]

/-- Witness for C10: the single-row payload with columns `t,o` (so
`high/low/close` stay missing after renaming) raises the `KeyError`. -/
theorem missing_columns_raise_witness :
    ensureOhlcIndexed (some missingColsFrame)
      = Except.error "KeyError: columns open/high/low/close not all present" :=
  missing_columns_raise.1 missingColsFrame (by decide) (by decide)

/-! ## Representation independence of candle normalization -/

theorem toNum_num (q : ℚ) : toNum (Cell.num q) = some q := rfl

theorem filterMapExtract (s : List CandleIn) (mk : CandleIn → List (String × Cell))
    (key : CandleIn → Option ℚ)
    (h1 : ∀ r, getCell (mk r) "open" = Cell.num r.o)
    (h2 : ∀ r, getCell (mk r) "high" = Cell.num r.hi)
    (h3 : ∀ r, getCell (mk r) "low" = Cell.num r.lo)
    (h4 : ∀ r, getCell (mk r) "close" = Cell.num r.c) :
    (s.map (fun r => (key r, mk r))).filterMap
        (fun p =>
          match toNum (getCell p.2 "open"), toNum (getCell p.2 "high"),
                toNum (getCell p.2 "low"), toNum (getCell p.2 "close") with
          | some o, some hi, some lo, some c => some (⟨p.1, o, hi, lo, c⟩ : NormRow)
          | _, _, _, _ => none)
      = s.map (fun r => ⟨key r, r.o, r.hi, r.lo, r.c⟩) := by
  induction s with
  | nil => rfl
  | cons x s ih =>
    simp only [List.map_cons, List.filterMap_cons, h1, h2, h3, h4, toNum_num]
    rw [ih]

theorem ensure_rawShort (r0 : CandleIn) (rest : List CandleIn)
    (hms : (1000000000000 : ℚ) < ratMul1000 r0.ts) :
    ensureOhlcIndexed (some (rawShortFrame (r0 :: rest)))
      = Except.ok (canonicalOf (r0 :: rest)) := by
  have happ : applyRenames (rawShortFrame (r0 :: rest))
      = ⟨["t", "open", "high", "low", "close"], (r0 :: rest).map shortRowRenamed⟩ := by
    simp [applyRenames, RENAME_MAPS, renameFrame, renameKey, rawShortFrame, shortRow,
      shortRowRenamed, List.find?, Function.comp]
  have hne : (rawShortFrame (r0 :: rest)).rows.isEmpty = false := rfl
  have hmsb : inferEpochUnitMs (Cell.num (ratMul1000 r0.ts)) = true := decide_eq_true hms
  have hbuild :
      buildIndexed ⟨["t", "open", "high", "low", "close"], (r0 :: rest).map shortRowRenamed⟩
        = (sortByKey (fun r : CandleIn => some r.ts) (r0 :: rest)).map
            (fun r => ((some r.ts : Option ℚ), shortRowRenamed r)) := by
    have hfind : TS_CANDIDATES.find?
        (fun c => (["t", "open", "high", "low", "close"] : List String).contains c)
          = some "t" := by decide
    simp only [buildIndexed, hfind, List.map_cons]
    have hget0 : getCell (shortRowRenamed r0) "t" = Cell.num (ratMul1000 r0.ts) := rfl
    rw [hget0, hmsb]
    have hmap : ((parseEpoch true (Cell.num (ratMul1000 r0.ts)), shortRowRenamed r0) ::
        (rest.map shortRowRenamed).map (fun r => (parseEpoch true (getCell r "t"), r)))
          = (r0 :: rest).map (fun r => ((some r.ts : Option ℚ), shortRowRenamed r)) := by
      rw [List.map_map, List.map_cons]
      congr 1
      · simp [parseEpoch, ratDiv1000_ratMul1000]
      · apply List.map_congr_left
        intro r _
        simp [getCell, shortRowRenamed, parseEpoch, ratDiv1000_ratMul1000, Function.comp,
          List.find?]
    rw [hmap]
    exact map_sortByKey (fun r : CandleIn => some r.ts)
      (fun p : Option ℚ × List (String × Cell) => p.1)
      (fun r => ((some r.ts : Option ℚ), shortRowRenamed r)) (fun r => rfl) (r0 :: rest)
  simp only [ensureOhlcIndexed, hne, Bool.false_eq_true, if_false, happ]
  rw [if_pos (by rfl), hbuild,
    filterMapExtract _ shortRowRenamed (fun r : CandleIn => some r.ts)
      (fun r => rfl) (fun r => rfl) (fun r => rfl) (fun r => rfl)]
  rfl

theorem ensure_rawCanon (r0 : CandleIn) (rest : List CandleIn)
    (hs : ¬ ((1000000000000 : ℚ) < r0.ts)) :
    ensureOhlcIndexed (some (rawCanonFrame (r0 :: rest)))
      = Except.ok (canonicalOf (r0 :: rest)) := by
  have happ : applyRenames (rawCanonFrame (r0 :: rest)) = rawCanonFrame (r0 :: rest) := by
    simp [applyRenames, RENAME_MAPS, rawCanonFrame]
  have hne : (rawCanonFrame (r0 :: rest)).rows.isEmpty = false := rfl
  have hsb : inferEpochUnitMs (Cell.num r0.ts) = false := decide_eq_false hs
  have hbuild :
      buildIndexed ⟨["timestamp", "open", "high", "low", "close"], (r0 :: rest).map canonRow⟩
        = (sortByKey (fun r : CandleIn => some r.ts) (r0 :: rest)).map
            (fun r => ((some r.ts : Option ℚ), canonRow r)) := by
    have hfind : TS_CANDIDATES.find?
        (fun c => (["timestamp", "open", "high", "low", "close"] : List String).contains c)
          = some "timestamp" := by decide
    simp only [buildIndexed, hfind, List.map_cons]
    have hget0 : getCell (canonRow r0) "timestamp" = Cell.num r0.ts := rfl
    rw [hget0, hsb]
    have hmap : ((parseEpoch false (Cell.num r0.ts), canonRow r0) ::
        (rest.map canonRow).map (fun r => (parseEpoch false (getCell r "timestamp"), r)))
          = (r0 :: rest).map (fun r => ((some r.ts : Option ℚ), canonRow r)) := by
      rw [List.map_map, List.map_cons]
      congr 1
    rw [hmap]
    exact map_sortByKey (fun r : CandleIn => some r.ts)
      (fun p : Option ℚ × List (String × Cell) => p.1)
      (fun r => ((some r.ts : Option ℚ), canonRow r)) (fun r => rfl) (r0 :: rest)
  have happ2 : applyRenames (rawCanonFrame (r0 :: rest))
      = ⟨["timestamp", "open", "high", "low", "close"], (r0 :: rest).map canonRow⟩ := by
    rw [happ]
    rfl
  simp only [ensureOhlcIndexed, hne, Bool.false_eq_true, if_false, happ2]
  rw [if_pos (by rfl), hbuild,
    filterMapExtract _ canonRow (fun r : CandleIn => some r.ts)
      (fun r => rfl) (fun r => rfl) (fun r => rfl) (fun r => rfl)]
  rfl

/-- Claim C9: a raw payload with epoch-millisecond timestamps under key
`t` and price fields `o,h,l,c` normalizes to the same canonical series
as a payload using `timestamp,open,high,low,close` for equivalent
values (the first payload carries each instant multiplied by 1000; the
magnitude hypotheses are exactly the unit-inference thresholds). -/
theorem candle_normalization_roundtrip :
    ∀ (rs : List CandleIn) (r0 : CandleIn) (rest : List CandleIn),
    rs = r0 :: rest →
    (1000000000000 : ℚ) < ratMul1000 r0.ts →
    ¬ ((1000000000000 : ℚ) < r0.ts) →
    ensureOhlcIndexed (some (rawShortFrame rs))
      = ensureOhlcIndexed (some (rawCanonFrame rs)) := by
  intro rs r0 rest hrs hms hs
  subst hrs
  rw [ensure_rawShort r0 rest hms, ensure_rawCanon r0 rest hs]

/-- Witness for C9: a one-candle payload at instant 2×10⁹ (so 2×10¹²
milliseconds) normalizes identically in both representations. -/
theorem candle_normalization_roundtrip_witness :
    ensureOhlcIndexed (some (rawShortFrame [⟨2000000000, 1, 2, 0, 1⟩]))
      = ensureOhlcIndexed (some (rawCanonFrame [⟨2000000000, 1, 2, 0, 1⟩])) :=
  candle_normalization_roundtrip [⟨2000000000, 1, 2, 0, 1⟩] ⟨2000000000, 1, 2, 0, 1⟩ []
    rfl (by decide) (by decide)
